import Mathlib

/-!
Verification of the lead-enrichment service core.

The definitions below are shallow embeddings of the TypeScript sources:
* `QueuedRateLimiter` (src/backend/src/utils/socketService.ts): a token-bucket
  plus concurrency-cap limiter with a FIFO waiting queue, modelled as an
  explicit state machine driven by timestamped events.  Fractional tokens are
  modelled as rationals, time as natural-number milliseconds.
* the provider waterfall (`performPhoneLookup`, `PhoneProvider.execute`,
  `ProviderRegistry`), the retry helper `retryWithBackoff`, the `JobTracker`
  progress counter, the batch-enrichment orchestrators, and the
  `phoneLookupWorkflow` input normalisation.
-/

namespace Spec2Proof

/-! ## QueuedRateLimiter (src/backend/src/utils/socketService.ts)

The limiter's constructor arguments.  `maxTokens` is `maxRequests`,
`timeWindow` is in milliseconds; `refillRate = maxRequests / timeWindow`
tokens per millisecond, exactly as in the constructor. -/

structure LimiterConfig where
  maxTokens : Nat
  timeWindow : Nat
  maxConcurrent : Nat
deriving DecidableEq, Repr

def refillRate (cfg : LimiterConfig) : ℚ :=
  (cfg.maxTokens : ℚ) / (cfg.timeWindow : ℚ)

/-- The limiter's mutable fields: the FIFO `queue` of waiter ids,
`activeRequests`, the fractional token count and `lastRefill` instant. -/
structure LimiterState where
  queue : List Nat
  active : Nat
  tokens : ℚ
  lastRefill : Nat
deriving DecidableEq, Repr

/-- Constructor state: empty queue, no active requests, a full bucket,
`lastRefill = Date.now()` at construction time `t0`. -/
def initState (cfg : LimiterConfig) (t0 : Nat) : LimiterState :=
  ⟨[], 0, (cfg.maxTokens : ℚ), t0⟩

/-- `refill()`: lazy refill.  Elapsed milliseconds since `lastRefill` are
converted to tokens; if positive they are added (clamped at `maxTokens`) and
`lastRefill` advances.  Negative elapsed time cannot occur in the `Nat`
model (truncated subtraction yields 0, matching the JS guard `newTokens > 0`). -/
def refill (cfg : LimiterConfig) (now : Nat) (s : LimiterState) : LimiterState :=
  let elapsed := now - s.lastRefill
  let newTokens : ℚ := (elapsed : ℚ) * refillRate cfg
  if 0 < newTokens then
    { s with tokens := min (cfg.maxTokens : ℚ) (s.tokens + newTokens), lastRefill := now }
  else s

/-- Result of one synchronous `processQueue()` drain: the final state, the ids
started (in dispatch order), and every intermediate state the loop passes
through (post-refill and post-admission instants). -/
structure DrainOut where
  final : LimiterState
  starts : List Nat
  seen : List LimiterState
deriving Repr

/-- The `processQueue()` while-loop.  Each iteration checks
`queue.length > 0 && canProcessRequest()` (the latter refills, then tests
`activeRequests < maxConcurrent && tokens >= 1`), shifts the head waiter,
increments `activeRequests` and consumes one token.  `fuel` is instantiated
with the queue length, which bounds the iteration count exactly. -/
def drainGo (cfg : LimiterConfig) (now : Nat) : Nat → LimiterState → DrainOut
  | 0, s => ⟨s, [], []⟩
  | fuel+1, s =>
    match s.queue with
    | [] => ⟨s, [], []⟩
    | rid :: rest =>
      let s1 := refill cfg now s
      if s1.active < cfg.maxConcurrent ∧ (1 : ℚ) ≤ s1.tokens then
        let s2 : LimiterState := ⟨rest, s1.active + 1, s1.tokens - 1, s1.lastRefill⟩
        let d := drainGo cfg now fuel s2
        ⟨d.final, rid :: d.starts, s1 :: s2 :: d.seen⟩
      else
        ⟨s1, [], [s1]⟩

def drain (cfg : LimiterConfig) (now : Nat) (s : LimiterState) : DrainOut :=
  drainGo cfg now s.queue.length s

/-- External stimuli of one limiter instance: `execute` pushing a waiter
(`enqueue`), completion of a running request (its `.finally` decrements
`activeRequests`), and a scheduled `setTimeout` retry.  Each stimulus runs
`processQueue()` synchronously at its timestamp. -/
inductive LEvent where
  | enqueue (rid : Nat)
  | complete
  | timer
deriving DecidableEq, Repr

def applyEvent : LEvent → LimiterState → LimiterState
  | .enqueue rid, s => { s with queue := s.queue ++ [rid] }
  | .complete, s => { s with active := s.active - 1 }
  | .timer, s => s

/-- A whole run: final state, all starts as (time, id) pairs in dispatch
order, and all intermediate states. -/
structure RunOut where
  final : LimiterState
  starts : List (Nat × Nat)
  seen : List LimiterState
deriving Repr

def runGo (cfg : LimiterConfig) : LimiterState → List (Nat × LEvent) → RunOut
  | s, [] => ⟨s, [], []⟩
  | s, (t, e) :: rest =>
    let s1 := applyEvent e s
    let d := drain cfg t s1
    let r := runGo cfg d.final rest
    ⟨r.final, d.starts.map (fun rid => (t, rid)) ++ r.starts, s1 :: (d.seen ++ r.seen)⟩

def runLimiter (cfg : LimiterConfig) (t0 : Nat) (tr : List (Nat × LEvent)) : RunOut :=
  runGo cfg (initState cfg t0) tr

/-- Every state the limiter passes through during a run (the initial state,
each post-event state, and each intermediate state of every drain loop). -/
def runStates (cfg : LimiterConfig) (t0 : Nat) (tr : List (Nat × LEvent)) : List LimiterState :=
  initState cfg t0 :: (runLimiter cfg t0 tr).seen

/-- Event timestamps are nondecreasing and bounded below by `t0`
(`Date.now()` is monotone). -/
def timesMonoB (t0 : Nat) : List (Nat × LEvent) → Bool
  | [] => true
  | (t, _) :: rest => decide (t0 ≤ t) && timesMonoB t rest

/-- Ids enqueued by a trace, in order of their `execute` calls. -/
def enqueuedIds (tr : List (Nat × LEvent)) : List Nat :=
  tr.filterMap (fun te => match te.2 with
    | .enqueue rid => some rid
    | _ => none)

def startedIds (ro : RunOut) : List Nat := ro.starts.map (fun p => p.2)

/-- Number of admissions whose timestamp lies in the closed window [u, v]. -/
def countStartsIn (starts : List (Nat × Nat)) (u v : Nat) : Nat :=
  (starts.filter (fun p => decide (u ≤ p.1) && decide (p.1 ≤ v))).length

/-- Number of admissions whose timestamp is at least `u`. -/
def startsGE (starts : List (Nat × Nat)) (u : Nat) : Nat :=
  (starts.filter (fun p => decide (u ≤ p.1))).length

/-- Token-bucket invariant used in the window-bound proof: counting the
admissions made at instants `≥ u`, either none happened yet, or the token
level plus that count is bounded by the bucket capacity plus everything the
bucket could have refilled between `u` and `lastRefill`. -/
def WinInv (cfg : LimiterConfig) (u : Nat) (c : Nat) (s : LimiterState) : Prop :=
  c = 0 ∨
    (u ≤ s.lastRefill ∧
      (c : ℚ) + s.tokens ≤ (cfg.maxTokens : ℚ) + refillRate cfg * ((s.lastRefill - u : Nat) : ℚ))

/-! ## Providers and the phone-lookup waterfall
(src/providers/PhoneProvider.ts, src/providers/providerRegistry.ts,
src/workflows/activities/phoneProviders.ts,
src/backend/src/workflows/activities/index.ts) -/

structure ProviderConfig where
  name : String
  priority : Nat
  costPerRequest : ℚ
  rateLimit : Nat
  timeWindow : Nat
  maxConcurrent : Nat
  enabled : Bool
  timeout : Nat
deriving DecidableEq, Repr

/-- `PROVIDER_CONFIGS` from src/workflows/activities/phoneProviders.ts
(costs in USD: 0.02, 0.01, 0.015). -/
def orionConfig : ProviderConfig :=
  { name := "Orion Connect", priority := 1, costPerRequest := 2/100, rateLimit := 5,
    timeWindow := 1000, maxConcurrent := 3, enabled := true, timeout := 10000 }

def astraConfig : ProviderConfig :=
  { name := "Astra Dialer", priority := 2, costPerRequest := 1/100, rateLimit := 10,
    timeWindow := 1000, maxConcurrent := 10, enabled := true, timeout := 10000 }

def nimbusConfig : ProviderConfig :=
  { name := "Nimbus Lookup", priority := 3, costPerRequest := 15/1000, rateLimit := 2,
    timeWindow := 1000, maxConcurrent := 2, enabled := true, timeout := 10000 }

def PROVIDER_CONFIGS : List ProviderConfig := [orionConfig, astraConfig, nimbusConfig]

/-- `ProviderRegistry`'s constructor: keep enabled configs, sorted by
ascending priority (`sort((a, b) => a.priority - b.priority)`, a stable sort). -/
def registryConfigs : List ProviderConfig :=
  (PROVIDER_CONFIGS.filter (fun c => c.enabled)).mergeSort
    (fun a b => decide (a.priority ≤ b.priority))

/-- A provider instance together with the outcome of its `lookup` for the
call under consideration: `.ok phone` when the underlying lookup ran and
returned `phone` (`string | null`), `.error` when it raised. -/
structure WProvider where
  config : ProviderConfig
  lookupOutcome : Except Unit (Option String)
deriving Repr

structure PhoneResult where
  phone : Option String
  provider : String
  cost : ℚ
  timestamp : Nat
deriving DecidableEq, Repr

/-- JS truthiness of `string | null`: `null` and the empty string are falsy. -/
def truthyStr : Option String → Bool
  | none => false
  | some s => !(s == "")

/-- `PhoneProvider.execute`: run the lookup under the rate limiter (which
resolves with exactly the lookup's value or propagates its failure) and wrap
it with the provider's name and `costPerRequest` — unconditionally, whether
or not a phone was found. -/
def PhoneProviderExecute (p : WProvider) (now : Nat) : Except Unit PhoneResult :=
  match p.lookupOutcome with
  | .error e => .error e
  | .ok phone =>
    .ok { phone := phone, provider := p.config.name, cost := p.config.costPerRequest,
          timestamp := now }

def provNone : String := "None"
def provExisting : String := "Existing"

/-- The all-providers-exhausted result of `performPhoneLookup`. -/
def noPhoneResult (now : Nat) : PhoneResult :=
  { phone := none, provider := provNone, cost := 0, timestamp := now }

structure LookupRun where
  result : PhoneResult
  invoked : List WProvider
deriving Repr

/-- `performPhoneLookup` (src/backend/src/workflows/activities/index.ts):
try each provider in order; return the first result whose `phone` is truthy;
a provider that throws is skipped; if none succeeds return `noPhoneResult`.
`invoked` records which providers had `execute` called, in order. -/
def performPhoneLookup (now : Nat) : List WProvider → LookupRun
  | [] => { result := noPhoneResult now, invoked := [] }
  | p :: rest =>
    match PhoneProviderExecute p now with
    | .error _ =>
      let r := performPhoneLookup now rest
      { result := r.result, invoked := p :: r.invoked }
    | .ok res =>
      if truthyStr res.phone then { result := res, invoked := [p] }
      else
        let r := performPhoneLookup now rest
        { result := r.result, invoked := p :: r.invoked }

/-- A provider attempt counts as a success for the waterfall iff its lookup
ran and returned a truthy phone. -/
def providerSucceeds (p : WProvider) : Bool :=
  match p.lookupOutcome with
  | .ok phone => truthyStr phone
  | .error _ => false

/-- The phone a provider's lookup returned (none if it raised). -/
def lookupPhoneOf (p : WProvider) : Option String :=
  match p.lookupOutcome with
  | .ok phone => phone
  | .error _ => none

/-! ## retryWithBackoff (src/workflows/activities/phoneProviders.ts) -/

/-- Outcome of one HTTP attempt: success, an axios failure carrying an
optional HTTP status (none for transport-level errors), or a non-axios
failure. -/
inductive HttpOutcome (α : Type) where
  | ok (v : α)
  | axiosErr (status : Option Nat)
  | otherErr
deriving DecidableEq, Repr

/-- The guard `status && status >= 400 && status < 500` (a missing or zero
status is falsy in JS). -/
def isClientError : Option Nat → Bool
  | some s => decide (400 ≤ s) && decide (s < 500)
  | none => false

structure RetryRun (α : Type) where
  result : Option α
  attempts : Nat
  backoffs : List Nat
deriving DecidableEq, Repr

/-- The `for (attempt = 0; attempt < maxRetries; attempt++)` loop of
`retryWithBackoff`.  `remaining` is the number of attempts still allowed
(initially `maxRetries`), `attempt` the 0-based index of the current one.
On success return the value; on a 4xx axios error or a non-axios error
return `null` immediately; otherwise sleep `2^attempt * 1000` ms and retry,
unless this was the last attempt, in which case return `null`. -/
def retryGo (outcomes : Nat → HttpOutcome α) : Nat → Nat → RetryRun α
  | 0, _ => { result := none, attempts := 0, backoffs := [] }
  | remaining+1, attempt =>
    match outcomes attempt with
    | .ok v => { result := some v, attempts := 1, backoffs := [] }
    | .otherErr => { result := none, attempts := 1, backoffs := [] }
    | .axiosErr st =>
      if isClientError st then { result := none, attempts := 1, backoffs := [] }
      else if remaining = 0 then { result := none, attempts := 1, backoffs := [] }
      else
        let r := retryGo outcomes remaining (attempt+1)
        { result := r.result, attempts := r.attempts + 1,
          backoffs := (2^attempt * 1000) :: r.backoffs }

def retryWithBackoff (outcomes : Nat → HttpOutcome α) (maxRetries : Nat) : RetryRun α :=
  retryGo outcomes maxRetries 0

/-- The retry condition the specification states: transport-level errors
(no HTTP status) or HTTP 5xx. -/
def specRetryCondition (st : Option Nat) : Prop :=
  st = none ∨ ∃ s, st = some s ∧ 500 ≤ s

/-! ## JobTracker (src/backend/src/utils/JobTracker.ts) -/

structure TrackedJob where
  totalLeads : Nat
  processedLeads : Nat
  completedAt : Option Nat
deriving DecidableEq, Repr

/-- A job as `createJob` / `createEnrichmentJob` initialise it. -/
def newJob (leadCount : Nat) : TrackedJob :=
  { totalLeads := leadCount, processedLeads := 0, completedAt := none }

/-- `incrementProgress`: `processedLeads++`; whenever the new count reaches
`totalLeads` or beyond, assign `completedAt = new Date()` (the model records
the call's timestamp `now`). -/
def incrementProgress (now : Nat) (j : TrackedJob) : TrackedJob :=
  let p := j.processedLeads + 1
  if j.totalLeads ≤ p then { j with processedLeads := p, completedAt := some now }
  else { j with processedLeads := p }

structure IncRun where
  job : TrackedJob
  stamps : Nat
deriving DecidableEq, Repr

/-- Run a sequence of `incrementProgress` calls (given by their timestamps),
counting in `stamps` how many of them assigned `completedAt`. -/
def incrementRun (j : TrackedJob) : List Nat → IncRun
  | [] => { job := j, stamps := 0 }
  | t :: ts =>
    let j1 := incrementProgress t j
    let r := incrementRun j1 ts
    { job := r.job, stamps := (if j.totalLeads ≤ j.processedLeads + 1 then 1 else 0) + r.stamps }

/-! ## Batch enrichment (src/backend/src/graphql/resolvers.ts,
src/backend/src/workflows/batchEnrichment.ts) -/

structure Lead where
  id : Nat
  firstName : String
  lastName : String
  email : String
  companyName : Option String
  jobTitle : Option String
  phoneNumber : Option String
  emailVerified : Option Bool
deriving DecidableEq, Repr

/-- `PhoneLookupResult` of src/backend/src/workflows/phoneLookup.ts
(`provider` and `cost` are optional). -/
structure PhoneLookupResult where
  phone : Option String
  provider : Option String
  cost : Option ℚ
deriving DecidableEq, Repr

def opVerifyEmail : String := "verify-email"
def opPhoneLookup : String := "phone-lookup"

/-- Socket events emitted for one enrichment cell. -/
inductive EmittedEvent where
  | operationComplete (leadId : Nat) (operation : String) (phone : Option String)
      (provider : Option String) (cost : Option ℚ)
  | operationError (leadId : Nat) (operation : String)
deriving DecidableEq, Repr

structure PhoneCellRun where
  events : List EmittedEvent
  workflowsStarted : Nat
  persisted : Option String
deriving DecidableEq, Repr

/-- The phone-lookup branch of `processEnrichment` in
src/backend/src/graphql/resolvers.ts for one lead: if `lead.phoneNumber` is
truthy, emit one synthetic `operation-complete` carrying the existing phone
with provider `'Existing'` and cost 0 and start no workflow; otherwise start
`phoneLookupWorkflow`, persist a truthy resulting phone, and emit one
`operation-complete` with the workflow's result (the surrounding `catch`
turns a failure into one `operation-error`). -/
def processEnrichmentPhoneCell (lead : Lead) (wf : Except String PhoneLookupResult) :
    PhoneCellRun :=
  if truthyStr lead.phoneNumber then
    { events := [.operationComplete lead.id opPhoneLookup lead.phoneNumber
        (some provExisting) (some 0)],
      workflowsStarted := 0, persisted := none }
  else
    match wf with
    | .error _ =>
      { events := [.operationError lead.id opPhoneLookup], workflowsStarted := 1,
        persisted := none }
    | .ok r =>
      { events := [.operationComplete lead.id opPhoneLookup r.phone r.provider r.cost],
        workflowsStarted := 1,
        persisted := if truthyStr r.phone then r.phone else none }

structure ChildWorkflowStart where
  name : String
  workflowId : String
  taskQueue : String
  leadId : Nat
deriving DecidableEq, Repr

def wfVerifyEmail : String := "verifyEmailWorkflow"
def wfPhoneLookup : String := "phoneLookupWorkflow"
def queueEmailVerification : String := "email-verification-queue"
def queuePhoneVerify1 : String := "phone-verify-1"

/-- The child workflows `batchEnrichmentWorkflow`
(src/backend/src/workflows/batchEnrichment.ts) starts: for each lead, a
verify-email child when that operation is selected and `emailVerified` is
null, and a phone-lookup child when that operation is selected and
`lead.phoneNumber` is falsy.  A lead whose phone is already set contributes
nothing — the workflow pushes no promise for it, so no
`updateLeadAndNotify` activity runs and no event is emitted for that cell. -/
def batchEnrichmentChildren (leads : List Lead) (operations : List String)
    (jobId : String) : List ChildWorkflowStart :=
  (leads.map (fun lead =>
    (if operations.contains opVerifyEmail ∧ lead.emailVerified = none then
      [{ name := wfVerifyEmail,
         workflowId := opVerifyEmail ++ "-" ++ toString lead.id ++ "-" ++ jobId,
         taskQueue := queueEmailVerification, leadId := lead.id }]
     else [])
    ++ (if operations.contains opPhoneLookup ∧ ¬ truthyStr lead.phoneNumber then
      [{ name := wfPhoneLookup,
         workflowId := opPhoneLookup ++ "-" ++ toString lead.id ++ "-" ++ jobId,
         taskQueue := queuePhoneVerify1, leadId := lead.id }]
     else []))).flatten

/-! ## phoneLookupWorkflow input normalisation
(src/backend/src/workflows/phoneLookup.ts) -/

structure PhoneLookupInput where
  firstName : String
  lastName : String
  email : String
  companyWebsite : Option String
  jobTitle : Option String
deriving DecidableEq, Repr

structure LookupParams where
  fullName : String
  companyWebsite : String
  jobTitle : String
deriving DecidableEq, Repr

/-- JS `x || d` on `string | undefined`: undefined and the empty string both
fall back to the default. -/
def jsOrString (x : Option String) (d : String) : String :=
  match x with
  | none => d
  | some s => if s == "" then d else s

def strExampleCom : String := "example.com"
def strUnknown : String := "Unknown"

/-- The first lines of `phoneLookupWorkflow`:
`fullName = firstName + ' ' + lastName`,
`companyWebsite = input.companyWebsite || 'example.com'`,
`jobTitle = input.jobTitle || 'Unknown'`. -/
def normalizeLookupInput (input : PhoneLookupInput) : LookupParams :=
  { fullName := input.firstName ++ " " ++ input.lastName,
    companyWebsite := jsOrString input.companyWebsite strExampleCom,
    jobTitle := jsOrString input.jobTitle strUnknown }

/-- In the batch workflow every started phone-lookup child, once its result
arrives, performs exactly one `updateLeadAndNotify` activity call, which
emits exactly one `operation-complete` event; the phone-cell events of a
batch are therefore one per started phone-lookup child. -/
def batchEnrichmentPhoneEventCount (leads : List Lead) (operations : List String)
    (jobId : String) : Nat :=
  ((batchEnrichmentChildren leads operations jobId).filter
    (fun c => c.name == wfPhoneLookup)).length

/-- A lead whose phone number is already set (seed scenario 7 of the spec). -/
def phone900 : String := "+1-900"

def leadWithPhone : Lead :=
  { id := 1, firstName := "Jane", lastName := "Doe", email := "jane@acme.com",
    companyName := none, jobTitle := none, phoneNumber := some phone900,
    emailVerified := none }

def jobOne : String := "job1"

/-- The empty string (falsy in JS). -/
def emptyStr : String := ""

/-! ## Concrete traces used to instantiate the limiter theorems -/

/-- A limiter `(maxRequests 5, timeWindow 1000ms, maxConcurrent 100)` given
nine `execute` calls at t = 0; the scheduler's retry timers fire at
t = 200, 400, 600, 800 (each 200ms refills one token at rate 5/1000). -/
def burstTrace : List (Nat × LEvent) :=
  [(0, .enqueue 1), (0, .enqueue 2), (0, .enqueue 3), (0, .enqueue 4), (0, .enqueue 5),
   (0, .enqueue 6), (0, .enqueue 7), (0, .enqueue 8), (0, .enqueue 9),
   (200, .timer), (400, .timer), (600, .timer), (800, .timer)]

/-- A small trace: three `execute` calls at t = 0 on a `(2, 1000ms, 10)`
limiter, then a retry timer at t = 500. -/
def smallTrace : List (Nat × LEvent) :=
  [(0, .enqueue 1), (0, .enqueue 2), (0, .enqueue 3), (500, .timer)]

/-! ## Lemmas: refill and event application touch only the fields they mention -/

theorem refill_queue (cfg : LimiterConfig) (now : Nat) (s : LimiterState) :
    (refill cfg now s).queue = s.queue := by
  unfold refill; dsimp only; split <;> rfl

theorem refill_active (cfg : LimiterConfig) (now : Nat) (s : LimiterState) :
    (refill cfg now s).active = s.active := by
  unfold refill; dsimp only; split <;> rfl

/-! ## C1: the concurrency cap is a run invariant -/

theorem drainGo_active_le (cfg : LimiterConfig) (now : Nat) :
    ∀ fuel s, s.active ≤ cfg.maxConcurrent →
      (drainGo cfg now fuel s).final.active ≤ cfg.maxConcurrent ∧
      ∀ x ∈ (drainGo cfg now fuel s).seen, x.active ≤ cfg.maxConcurrent := by
  intro fuel
  induction fuel with
  | zero => intro s h; exact ⟨h, by simp [drainGo]⟩
  | succ n ih =>
    intro s h
    rcases hq : s.queue with _ | ⟨rid, rest⟩
    · simp only [drainGo, hq]
      exact ⟨h, by simp⟩
    · simp only [drainGo, hq]
      by_cases hc : (refill cfg now s).active < cfg.maxConcurrent ∧
          (1 : ℚ) ≤ (refill cfg now s).tokens
      · rw [if_pos hc]
        have h2 : (⟨rest, (refill cfg now s).active + 1, (refill cfg now s).tokens - 1,
            (refill cfg now s).lastRefill⟩ : LimiterState).active ≤ cfg.maxConcurrent := hc.1
        obtain ⟨hf, hs⟩ := ih _ h2
        refine ⟨hf, ?_⟩
        intro x hx
        simp only [List.mem_cons] at hx
        rcases hx with hx | hx | hx
        · rw [hx, refill_active]; exact h
        · rw [hx]; exact h2
        · exact hs x hx
      · rw [if_neg hc]
        refine ⟨?_, ?_⟩
        · rw [refill_active]; exact h
        · intro x hx
          simp only [List.mem_cons, List.not_mem_nil, or_false] at hx
          rw [hx, refill_active]; exact h

theorem drain_active_le (cfg : LimiterConfig) (now : Nat) (s : LimiterState)
    (h : s.active ≤ cfg.maxConcurrent) :
    (drain cfg now s).final.active ≤ cfg.maxConcurrent ∧
    ∀ x ∈ (drain cfg now s).seen, x.active ≤ cfg.maxConcurrent :=
  drainGo_active_le cfg now s.queue.length s h

theorem applyEvent_active_le (e : LEvent) (s : LimiterState) :
    (applyEvent e s).active ≤ s.active := by
  cases e <;> simp [applyEvent, Nat.sub_le]

theorem runGo_active_le (cfg : LimiterConfig) :
    ∀ tr s, s.active ≤ cfg.maxConcurrent →
      (runGo cfg s tr).final.active ≤ cfg.maxConcurrent ∧
      ∀ x ∈ (runGo cfg s tr).seen, x.active ≤ cfg.maxConcurrent := by
  intro tr
  induction tr with
  | nil => intro s h; exact ⟨h, by simp [runGo]⟩
  | cons te rest ih =>
    obtain ⟨t, e⟩ := te
    intro s h
    have h1 : (applyEvent e s).active ≤ cfg.maxConcurrent :=
      le_trans (applyEvent_active_le e s) h
    obtain ⟨hdf, hds⟩ := drain_active_le cfg t (applyEvent e s) h1
    obtain ⟨hrf, hrs⟩ := ih (drain cfg t (applyEvent e s)).final hdf
    simp only [runGo]
    refine ⟨hrf, ?_⟩
    intro x hx
    simp only [List.mem_cons] at hx
    rcases hx with hx | hx
    · rw [hx]; exact h1
    · rcases List.mem_append.mp hx with hx | hx
      · exact hds x hx
      · exact hrs x hx

/-- C1: for every sequence of `execute` calls (and completions and timer
firings) on one `QueuedRateLimiter`, at no instant during processing does
`activeRequests` exceed `maxConcurrent`: every state the limiter passes
through — including each intermediate state of every `processQueue` drain,
where a waiter is started only under the guard
`activeRequests < maxConcurrent` and completion decrements the counter —
satisfies `active ≤ maxConcurrent`. -/
theorem activeRequests_never_exceed_maxConcurrent
    (cfg : LimiterConfig) (t0 : Nat) (tr : List (Nat × LEvent)) :
    ∀ s ∈ runStates cfg t0 tr, s.active ≤ cfg.maxConcurrent := by
  intro s hs
  simp only [runStates, List.mem_cons] at hs
  rcases hs with hs | hs
  · rw [hs]; exact Nat.zero_le _
  · exact (runGo_active_le cfg tr (initState cfg t0) (Nat.zero_le _)).2 s hs

/-- Witness for C1: a concrete run (limiter `(2, 1000ms, maxConcurrent 1)`,
two `execute` calls at t = 0) passes through the state where the first
request is active and the second is queued; the theorem bounds its
`active` field. -/
theorem activeRequests_never_exceed_maxConcurrent_witness :
    (⟨[2], 1, (1 : ℚ), 0⟩ : LimiterState) ∈
      runStates ⟨2, 1000, 1⟩ 0 [(0, .enqueue 1), (0, .enqueue 2)] ∧
    (⟨[2], 1, (1 : ℚ), 0⟩ : LimiterState).active ≤ (1 : Nat) := by
  have hm : (⟨[2], 1, (1 : ℚ), 0⟩ : LimiterState) ∈
      runStates ⟨2, 1000, 1⟩ 0 [(0, .enqueue 1), (0, .enqueue 2)] := by
    norm_num [runStates, runLimiter, runGo, drain, drainGo, refill, applyEvent,
      initState, refillRate]
  exact ⟨hm, activeRequests_never_exceed_maxConcurrent ⟨2, 1000, 1⟩ 0 _ _ hm⟩

/-! ## C2: dispatch is strict FIFO in enqueue order -/

theorem drainGo_fifo (cfg : LimiterConfig) (now : Nat) :
    ∀ fuel s, (drainGo cfg now fuel s).starts ++ (drainGo cfg now fuel s).final.queue
      = s.queue := by
  intro fuel
  induction fuel with
  | zero => intro s; simp [drainGo]
  | succ n ih =>
    intro s
    rcases hq : s.queue with _ | ⟨rid, rest⟩
    · simp [drainGo, hq]
    · simp only [drainGo, hq]
      by_cases hc : (refill cfg now s).active < cfg.maxConcurrent ∧
          (1 : ℚ) ≤ (refill cfg now s).tokens
      · rw [if_pos hc]
        have := ih (⟨rest, (refill cfg now s).active + 1, (refill cfg now s).tokens - 1,
          (refill cfg now s).lastRefill⟩ : LimiterState)
        simpa using this
      · rw [if_neg hc]
        simp [refill_queue, hq]

theorem drain_fifo (cfg : LimiterConfig) (now : Nat) (s : LimiterState) :
    (drain cfg now s).starts ++ (drain cfg now s).final.queue = s.queue :=
  drainGo_fifo cfg now s.queue.length s

theorem runGo_fifo (cfg : LimiterConfig) :
    ∀ tr s, startedIds (runGo cfg s tr) ++ (runGo cfg s tr).final.queue
      = s.queue ++ enqueuedIds tr := by
  intro tr
  induction tr with
  | nil => intro s; simp [runGo, startedIds, enqueuedIds]
  | cons te rest ih =>
    obtain ⟨t, e⟩ := te
    intro s
    simp only [runGo]
    have hdrain := drain_fifo cfg t (applyEvent e s)
    have hrec := ih (drain cfg t (applyEvent e s)).final
    have hqe : (applyEvent e s).queue ++ enqueuedIds rest = s.queue ++ enqueuedIds ((t, e) :: rest) := by
      cases e <;> simp [applyEvent, enqueuedIds]
    calc startedIds ⟨(runGo cfg (drain cfg t (applyEvent e s)).final rest).final,
          (drain cfg t (applyEvent e s)).starts.map (fun rid => (t, rid)) ++
            (runGo cfg (drain cfg t (applyEvent e s)).final rest).starts,
          _ ⟩ ++ (runGo cfg (drain cfg t (applyEvent e s)).final rest).final.queue
        = (drain cfg t (applyEvent e s)).starts ++
            (startedIds (runGo cfg (drain cfg t (applyEvent e s)).final rest) ++
             (runGo cfg (drain cfg t (applyEvent e s)).final rest).final.queue) := by
          simp [startedIds, List.map_map, Function.comp]
      _ = (drain cfg t (applyEvent e s)).starts ++
            ((drain cfg t (applyEvent e s)).final.queue ++ enqueuedIds rest) := by
          rw [hrec]
      _ = ((drain cfg t (applyEvent e s)).starts ++
            (drain cfg t (applyEvent e s)).final.queue) ++ enqueuedIds rest := by
          rw [List.append_assoc]
      _ = (applyEvent e s).queue ++ enqueuedIds rest := by
          rw [hdrain]
      _ = s.queue ++ enqueuedIds ((t, e) :: rest) := hqe

/-- C2: dispatch is strict FIFO by enqueue order.  For any run, the ids
whose functions have begun executing, in execution order, followed by the
ids still waiting in the queue, in queue order, are exactly the ids in
`execute`-call order: a head-of-line waiter is never skipped, so if A is
enqueued before B then A begins executing no later than B. -/
theorem dispatch_is_fifo (cfg : LimiterConfig) (t0 : Nat) (tr : List (Nat × LEvent)) :
    startedIds (runLimiter cfg t0 tr) ++ (runLimiter cfg t0 tr).final.queue
      = enqueuedIds tr := by
  have := runGo_fifo cfg tr (initState cfg t0)
  simpa [runLimiter, initState] using this

/-! ## C3: token bounds and the windowed admission count -/

theorem refillRate_nonneg (cfg : LimiterConfig) : 0 ≤ refillRate cfg := by
  unfold refillRate
  positivity

theorem refillRate_pos (cfg : LimiterConfig) (hM : 0 < cfg.maxTokens)
    (hT : 0 < cfg.timeWindow) : 0 < refillRate cfg := by
  unfold refillRate
  have h1 : (0 : ℚ) < (cfg.maxTokens : ℚ) := by exact_mod_cast hM
  have h2 : (0 : ℚ) < (cfg.timeWindow : ℚ) := by exact_mod_cast hT
  positivity

theorem refill_lastRefill_le (cfg : LimiterConfig) (now : Nat) (s : LimiterState)
    (hle : s.lastRefill ≤ now) : (refill cfg now s).lastRefill ≤ now := by
  unfold refill; dsimp only; split
  · exact le_refl now
  · exact hle

theorem refill_lastRefill_ge (cfg : LimiterConfig) (now : Nat) (s : LimiterState)
    (hle : s.lastRefill ≤ now) : s.lastRefill ≤ (refill cfg now s).lastRefill := by
  unfold refill; dsimp only; split
  · exact hle
  · exact le_refl _

theorem refill_lastRefill_eq (cfg : LimiterConfig) (now : Nat) (s : LimiterState)
    (hle : s.lastRefill ≤ now) (hr : 0 < refillRate cfg) :
    (refill cfg now s).lastRefill = now := by
  unfold refill; dsimp only
  split
  · rfl
  · next hneg =>
    rcases Nat.lt_or_ge s.lastRefill now with hlt | hge
    · exfalso
      apply hneg
      have helapsed : (0 : ℚ) < ((now - s.lastRefill : Nat) : ℚ) := by
        have : 0 < now - s.lastRefill := Nat.sub_pos_of_lt hlt
        exact_mod_cast this
      exact mul_pos helapsed hr
    · exact le_antisymm hle hge

theorem refill_tokens_nonneg (cfg : LimiterConfig) (now : Nat) (s : LimiterState)
    (h0 : 0 ≤ s.tokens) : 0 ≤ (refill cfg now s).tokens := by
  unfold refill; dsimp only
  split
  · next hpos =>
    apply le_min
    · positivity
    · linarith
  · exact h0

theorem refill_tokens_le_max (cfg : LimiterConfig) (now : Nat) (s : LimiterState)
    (hmax : s.tokens ≤ (cfg.maxTokens : ℚ)) :
    (refill cfg now s).tokens ≤ (cfg.maxTokens : ℚ) := by
  unfold refill; dsimp only
  split
  · exact min_le_left _ _
  · exact hmax

theorem refill_tokens_le_add (cfg : LimiterConfig) (now : Nat) (s : LimiterState) :
    (refill cfg now s).tokens
      ≤ s.tokens + ((now - s.lastRefill : Nat) : ℚ) * refillRate cfg := by
  unfold refill; dsimp only
  split
  · exact min_le_right _ _
  · next hneg =>
    have hnn : 0 ≤ ((now - s.lastRefill : Nat) : ℚ) * refillRate cfg := by
      have : (0 : ℚ) ≤ ((now - s.lastRefill : Nat) : ℚ) := by positivity
      exact mul_nonneg this (refillRate_nonneg cfg)
    linarith

theorem WinInv_refill (cfg : LimiterConfig) (u now : Nat) (c : Nat) (s : LimiterState)
    (hle : s.lastRefill ≤ now) (hr : 0 < refillRate cfg)
    (hw : WinInv cfg u c s) : WinInv cfg u c (refill cfg now s) := by
  rcases hw with hw | ⟨hu, hb⟩
  · exact Or.inl hw
  · right
    have hlr : (refill cfg now s).lastRefill = now := refill_lastRefill_eq cfg now s hle hr
    have huv : u ≤ now := le_trans hu hle
    refine ⟨by rw [hlr]; exact huv, ?_⟩
    have hadd := refill_tokens_le_add cfg now s
    have hc1 : ((s.lastRefill - u : Nat) : ℚ) = (s.lastRefill : ℚ) - (u : ℚ) := by
      exact Nat.cast_sub hu
    have hc2 : ((now - s.lastRefill : Nat) : ℚ) = (now : ℚ) - (s.lastRefill : ℚ) := by
      exact Nat.cast_sub hle
    have hc3 : (((refill cfg now s).lastRefill - u : Nat) : ℚ) = (now : ℚ) - (u : ℚ) := by
      rw [hlr]; exact Nat.cast_sub huv
    rw [hc3]
    rw [hc1] at hb
    rw [hc2] at hadd
    nlinarith [hb, hadd]

theorem applyEvent_tokens (e : LEvent) (s : LimiterState) :
    (applyEvent e s).tokens = s.tokens := by
  cases e <;> rfl

theorem applyEvent_lastRefill (e : LEvent) (s : LimiterState) :
    (applyEvent e s).lastRefill = s.lastRefill := by
  cases e <;> rfl

theorem WinInv_applyEvent (cfg : LimiterConfig) (u : Nat) (c : Nat) (e : LEvent)
    (s : LimiterState) (hw : WinInv cfg u c s) : WinInv cfg u c (applyEvent e s) := by
  rcases hw with hw | ⟨hu, hb⟩
  · exact Or.inl hw
  · right
    rw [applyEvent_lastRefill, applyEvent_tokens]
    exact ⟨hu, hb⟩

/-- Token bounds [0, maxTokens] are preserved through every instant of one
drain loop: a new waiter is admitted only when at least one token is
available and consumes exactly one, and refills clamp at `maxTokens`. -/
theorem drainGo_tokens (cfg : LimiterConfig) (now : Nat) :
    ∀ fuel s, 0 ≤ s.tokens → s.tokens ≤ (cfg.maxTokens : ℚ) →
      (0 ≤ (drainGo cfg now fuel s).final.tokens ∧
        (drainGo cfg now fuel s).final.tokens ≤ (cfg.maxTokens : ℚ)) ∧
      ∀ x ∈ (drainGo cfg now fuel s).seen,
        0 ≤ x.tokens ∧ x.tokens ≤ (cfg.maxTokens : ℚ) := by
  intro fuel
  induction fuel with
  | zero => intro s h0 hmax; exact ⟨⟨h0, hmax⟩, by simp [drainGo]⟩
  | succ n ih =>
    intro s h0 hmax
    rcases hq : s.queue with _ | ⟨rid, rest⟩
    · simp only [drainGo, hq]
      exact ⟨⟨h0, hmax⟩, by simp⟩
    · simp only [drainGo, hq]
      have h1nn : 0 ≤ (refill cfg now s).tokens := refill_tokens_nonneg cfg now s h0
      have h1max : (refill cfg now s).tokens ≤ (cfg.maxTokens : ℚ) :=
        refill_tokens_le_max cfg now s hmax
      by_cases hc : (refill cfg now s).active < cfg.maxConcurrent ∧
          (1 : ℚ) ≤ (refill cfg now s).tokens
      · rw [if_pos hc]
        have h2nn : (0 : ℚ) ≤ (refill cfg now s).tokens - 1 := by linarith [hc.2]
        have h2max : (refill cfg now s).tokens - 1 ≤ (cfg.maxTokens : ℚ) := by linarith
        obtain ⟨hf, hs⟩ := ih (⟨rest, (refill cfg now s).active + 1,
          (refill cfg now s).tokens - 1, (refill cfg now s).lastRefill⟩ : LimiterState)
          h2nn h2max
        refine ⟨hf, ?_⟩
        intro x hx
        simp only [List.mem_cons] at hx
        rcases hx with hx | hx | hx
        · rw [hx]; exact ⟨h1nn, h1max⟩
        · rw [hx]; exact ⟨h2nn, h2max⟩
        · exact hs x hx
      · rw [if_neg hc]
        refine ⟨⟨h1nn, h1max⟩, ?_⟩
        intro x hx
        simp only [List.mem_cons, List.not_mem_nil, or_false] at hx
        rw [hx]; exact ⟨h1nn, h1max⟩

theorem runGo_tokens (cfg : LimiterConfig) :
    ∀ tr s, 0 ≤ s.tokens → s.tokens ≤ (cfg.maxTokens : ℚ) →
      (0 ≤ (runGo cfg s tr).final.tokens ∧
        (runGo cfg s tr).final.tokens ≤ (cfg.maxTokens : ℚ)) ∧
      ∀ x ∈ (runGo cfg s tr).seen, 0 ≤ x.tokens ∧ x.tokens ≤ (cfg.maxTokens : ℚ) := by
  intro tr
  induction tr with
  | nil => intro s h0 hmax; exact ⟨⟨h0, hmax⟩, by simp [runGo]⟩
  | cons te rest ih =>
    obtain ⟨t, e⟩ := te
    intro s h0 hmax
    have h1 : (applyEvent e s).tokens = s.tokens := applyEvent_tokens e s
    obtain ⟨⟨hdn, hdm⟩, hds⟩ := drainGo_tokens cfg t (applyEvent e s).queue.length
      (applyEvent e s) (by rw [h1]; exact h0) (by rw [h1]; exact hmax)
    obtain ⟨hf, hrs⟩ := ih (drain cfg t (applyEvent e s)).final hdn hdm
    simp only [runGo]
    refine ⟨hf, ?_⟩
    intro x hx
    simp only [List.mem_cons] at hx
    rcases hx with hx | hx
    · rw [hx, h1]; exact ⟨h0, hmax⟩
    · rcases List.mem_append.mp hx with hx | hx
      · exact hds x hx
      · exact hrs x hx

/-- One drain loop at instant `now` preserves the windowed-admission
invariant: every admission performed in the loop is stamped `now`, is
admitted only with `tokens ≥ 1` after a refill that set `lastRefill = now`,
and consumes one token. -/
theorem drainGo_window (cfg : LimiterConfig) (u now : Nat) (hr : 0 < refillRate cfg) :
    ∀ fuel s c, s.lastRefill ≤ now → 0 ≤ s.tokens → s.tokens ≤ (cfg.maxTokens : ℚ) →
      WinInv cfg u c s →
      (drainGo cfg now fuel s).final.lastRefill ≤ now ∧
      WinInv cfg u
        (c + (if u ≤ now then (drainGo cfg now fuel s).starts.length else 0))
        (drainGo cfg now fuel s).final := by
  intro fuel
  induction fuel with
  | zero =>
    intro s c hle h0 hmax hw
    simp only [drainGo, List.length_nil, ite_self, Nat.add_zero]
    exact ⟨hle, hw⟩
  | succ n ih =>
    intro s c hle h0 hmax hw
    rcases hq : s.queue with _ | ⟨rid, rest⟩
    · simp only [drainGo, hq, List.length_nil, ite_self, Nat.add_zero]
      exact ⟨hle, hw⟩
    · simp only [drainGo, hq]
      have h1le : (refill cfg now s).lastRefill = now := refill_lastRefill_eq cfg now s hle hr
      have h1nn : 0 ≤ (refill cfg now s).tokens := refill_tokens_nonneg cfg now s h0
      have h1max : (refill cfg now s).tokens ≤ (cfg.maxTokens : ℚ) :=
        refill_tokens_le_max cfg now s hmax
      have h1w : WinInv cfg u c (refill cfg now s) := WinInv_refill cfg u now c s hle hr hw
      by_cases hc : (refill cfg now s).active < cfg.maxConcurrent ∧
          (1 : ℚ) ≤ (refill cfg now s).tokens
      · rw [if_pos hc]
        by_cases hun : u ≤ now
        · have h2w : WinInv cfg u (c + 1) (⟨rest, (refill cfg now s).active + 1,
              (refill cfg now s).tokens - 1, (refill cfg now s).lastRefill⟩ : LimiterState) := by
            right
            refine ⟨by dsimp only; rw [h1le]; exact hun, ?_⟩
            dsimp only
            have hcast : (((refill cfg now s).lastRefill - u : Nat) : ℚ)
                = (now : ℚ) - (u : ℚ) := by
              rw [h1le]; exact Nat.cast_sub hun
            rw [hcast]
            rcases h1w with hzero | ⟨hu1, hb1⟩
            · subst hzero
              have hnow : (0 : ℚ) ≤ ((now : ℚ) - (u : ℚ)) := by
                have : (u : ℚ) ≤ (now : ℚ) := by exact_mod_cast hun
                linarith
              have := mul_nonneg (le_of_lt hr) hnow
              push_cast
              linarith
            · have hcast1 : (((refill cfg now s).lastRefill - u : Nat) : ℚ)
                  = (now : ℚ) - (u : ℚ) := by
                rw [h1le]; exact Nat.cast_sub hun
              rw [hcast1] at hb1
              push_cast
              linarith
          obtain ⟨hfle, hfw⟩ := ih (⟨rest, (refill cfg now s).active + 1,
            (refill cfg now s).tokens - 1, (refill cfg now s).lastRefill⟩ : LimiterState)
            (c + 1) (by dsimp only; rw [h1le]) (by dsimp only; linarith [hc.2])
            (by dsimp only; linarith [h1max]) h2w
          rw [if_pos hun] at hfw ⊢
          refine ⟨hfle, ?_⟩
          rw [List.length_cons]
          have : c + ((drainGo cfg now n (⟨rest, (refill cfg now s).active + 1,
              (refill cfg now s).tokens - 1, (refill cfg now s).lastRefill⟩ :
              LimiterState)).starts.length + 1)
              = c + 1 + (drainGo cfg now n (⟨rest, (refill cfg now s).active + 1,
              (refill cfg now s).tokens - 1, (refill cfg now s).lastRefill⟩ :
              LimiterState)).starts.length := by omega
          rw [this]
          exact hfw
        · have h2w : WinInv cfg u c (⟨rest, (refill cfg now s).active + 1,
              (refill cfg now s).tokens - 1, (refill cfg now s).lastRefill⟩ : LimiterState) := by
            rcases h1w with hzero | ⟨hu1, hb1⟩
            · exact Or.inl hzero
            · exact absurd (le_trans hu1 (le_of_eq h1le)) hun
          obtain ⟨hfle, hfw⟩ := ih (⟨rest, (refill cfg now s).active + 1,
            (refill cfg now s).tokens - 1, (refill cfg now s).lastRefill⟩ : LimiterState)
            c (by dsimp only; rw [h1le]) (by dsimp only; linarith [hc.2])
            (by dsimp only; linarith [h1max]) h2w
          rw [if_neg hun] at hfw ⊢
          exact ⟨hfle, hfw⟩
      · rw [if_neg hc]
        simp only [List.length_nil, ite_self, Nat.add_zero]
        exact ⟨le_of_eq h1le, h1w⟩

theorem startsGE_append (l1 l2 : List (Nat × Nat)) (u : Nat) :
    startsGE (l1 ++ l2) u = startsGE l1 u + startsGE l2 u := by
  simp [startsGE, List.filter_append]

theorem startsGE_map_time (l : List Nat) (t u : Nat) :
    startsGE (l.map (fun rid => (t, rid))) u = if u ≤ t then l.length else 0 := by
  induction l with
  | nil => simp [startsGE]
  | cons a l ih =>
    by_cases hut : u ≤ t
    · simp only [if_pos hut] at ih ⊢
      simp [startsGE, List.filter_cons, hut] at ih ⊢
      omega
    · simp only [if_neg hut] at ih ⊢
      simp [startsGE, List.filter_cons, hut] at ih ⊢
      omega

theorem runGo_window (cfg : LimiterConfig) (u : Nat) (hr : 0 < refillRate cfg) (v : Nat) :
    ∀ tr s c tprev, timesMonoB tprev tr = true → (∀ te ∈ tr, te.1 ≤ v) →
      s.lastRefill ≤ tprev → tprev ≤ v →
      0 ≤ s.tokens → s.tokens ≤ (cfg.maxTokens : ℚ) →
      WinInv cfg u c s →
      (runGo cfg s tr).final.lastRefill ≤ v ∧
      0 ≤ (runGo cfg s tr).final.tokens ∧
      WinInv cfg u (c + startsGE (runGo cfg s tr).starts u) (runGo cfg s tr).final := by
  intro tr
  induction tr with
  | nil =>
    intro s c tprev hm hb hle hpv h0 hmax hw
    simp only [runGo]
    refine ⟨le_trans hle hpv, h0, ?_⟩
    simpa [startsGE] using hw
  | cons te rest ih =>
    obtain ⟨t, e⟩ := te
    intro s c tprev hm hb hle hpv h0 hmax hw
    simp only [timesMonoB, Bool.and_eq_true, decide_eq_true_eq] at hm
    obtain ⟨hpt, hm2⟩ := hm
    have htv : t ≤ v := hb (t, e) (List.mem_cons_self _ _)
    have hb2 : ∀ te ∈ rest, te.1 ≤ v := fun te hte => hb te (List.mem_cons_of_mem _ hte)
    have hae_t : (applyEvent e s).tokens = s.tokens := applyEvent_tokens e s
    have hae_l : (applyEvent e s).lastRefill = s.lastRefill := applyEvent_lastRefill e s
    have hw1 : WinInv cfg u c (applyEvent e s) := WinInv_applyEvent cfg u c e s hw
    obtain ⟨hdle, hdw⟩ := drainGo_window cfg u t hr (applyEvent e s).queue.length
      (applyEvent e s) c (by rw [hae_l]; exact le_trans hle hpt)
      (by rw [hae_t]; exact h0) (by rw [hae_t]; exact hmax) hw1
    obtain ⟨⟨hdn, hdm⟩, _⟩ := drainGo_tokens cfg t (applyEvent e s).queue.length
      (applyEvent e s) (by rw [hae_t]; exact h0) (by rw [hae_t]; exact hmax)
    obtain ⟨hfle, hf0, hfw⟩ := ih (drain cfg t (applyEvent e s)).final
      (c + (if u ≤ t then (drain cfg t (applyEvent e s)).starts.length else 0)) t
      hm2 hb2 hdle htv hdn hdm hdw
    simp only [runGo]
    refine ⟨hfle, hf0, ?_⟩
    rw [startsGE_append, startsGE_map_time]
    have harith : c + ((if u ≤ t then (drain cfg t (applyEvent e s)).starts.length else 0) +
        startsGE (runGo cfg (drain cfg t (applyEvent e s)).final rest).starts u)
        = c + (if u ≤ t then (drain cfg t (applyEvent e s)).starts.length else 0) +
          startsGE (runGo cfg (drain cfg t (applyEvent e s)).final rest).starts u := by
      omega
    rw [harith]
    exact hfw

theorem runGo_starts_append (cfg : LimiterConfig) :
    ∀ l1 l2 s, (runGo cfg s (l1 ++ l2)).starts
      = (runGo cfg s l1).starts ++ (runGo cfg (runGo cfg s l1).final l2).starts := by
  intro l1
  induction l1 with
  | nil => intro l2 s; simp [runGo]
  | cons te rest ih =>
    obtain ⟨t, e⟩ := te
    intro l2 s
    simp only [List.cons_append, runGo, List.append_eq]
    rw [ih]
    simp [List.append_assoc]

theorem runGo_final_append (cfg : LimiterConfig) :
    ∀ l1 l2 s, (runGo cfg s (l1 ++ l2)).final
      = (runGo cfg (runGo cfg s l1).final l2).final := by
  intro l1
  induction l1 with
  | nil => intro l2 s; simp [runGo]
  | cons te rest ih =>
    obtain ⟨t, e⟩ := te
    intro l2 s
    simp only [List.cons_append, runGo, List.append_eq]
    rw [ih]

theorem runGo_start_times (cfg : LimiterConfig) :
    ∀ tr s p, p ∈ (runGo cfg s tr).starts → p.1 ∈ tr.map Prod.fst := by
  intro tr
  induction tr with
  | nil => intro s p hp; simp [runGo] at hp
  | cons te rest ih =>
    obtain ⟨t, e⟩ := te
    intro s p hp
    simp only [runGo] at hp
    rcases List.mem_append.mp hp with hp | hp
    · obtain ⟨rid, _, hrid⟩ := List.mem_map.mp hp
      rw [← hrid]
      simp
    · simp only [List.map_cons, List.mem_cons]
      exact Or.inr (ih _ p hp)

theorem timesMonoB_le :
    ∀ (tr : List (Nat × LEvent)) (t0 : Nat), timesMonoB t0 tr = true →
      ∀ te ∈ tr, t0 ≤ te.1 := by
  intro tr
  induction tr with
  | nil => intro t0 _ te hte; cases hte
  | cons te0 rest ih =>
    obtain ⟨t, e⟩ := te0
    intro t0 hm te hte
    simp only [timesMonoB, Bool.and_eq_true, decide_eq_true_eq] at hm
    rcases List.mem_cons.mp hte with h | h
    · rw [h]; exact hm.1
    · exact le_trans hm.1 (ih t hm.2 te h)

theorem timesMonoB_append_left :
    ∀ (l1 l2 : List (Nat × LEvent)) (t0 : Nat),
      timesMonoB t0 (l1 ++ l2) = true → timesMonoB t0 l1 = true := by
  intro l1
  induction l1 with
  | nil => intro l2 t0 _; rfl
  | cons te rest ih =>
    obtain ⟨t, e⟩ := te
    intro l2 t0 hm
    simp only [List.cons_append, timesMonoB, Bool.and_eq_true] at hm ⊢
    exact ⟨hm.1, ih l2 t hm.2⟩

theorem timesMonoB_dropWhile_gt (v : Nat) :
    ∀ (tr : List (Nat × LEvent)) (t0 : Nat), timesMonoB t0 tr = true →
      ∀ te ∈ tr.dropWhile (fun te => decide (te.1 ≤ v)), v < te.1 := by
  intro tr
  induction tr with
  | nil => intro t0 _ te hte; simp [List.dropWhile] at hte
  | cons te0 rest ih =>
    obtain ⟨t, e⟩ := te0
    intro t0 hm
    simp only [timesMonoB, Bool.and_eq_true, decide_eq_true_eq] at hm
    by_cases htv : t ≤ v
    · intro te hte
      rw [List.dropWhile_cons] at hte
      simp only [decide_eq_true_eq, if_pos htv] at hte
      exact ih t hm.2 te hte
    · intro te hte
      rw [List.dropWhile_cons] at hte
      simp only [decide_eq_true_eq, if_neg htv] at hte
      rcases List.mem_cons.mp hte with h | h
      · rw [h]; exact Nat.lt_of_not_le htv
      · exact lt_of_lt_of_le (Nat.lt_of_not_le htv) (timesMonoB_le rest t hm.2 te h)

theorem countStartsIn_append (l1 l2 : List (Nat × Nat)) (u v : Nat) :
    countStartsIn (l1 ++ l2) u v = countStartsIn l1 u v + countStartsIn l2 u v := by
  simp [countStartsIn, List.filter_append]

theorem countStartsIn_eq_startsGE (l : List (Nat × Nat)) (u v : Nat)
    (h : ∀ p ∈ l, p.1 ≤ v) : countStartsIn l u v = startsGE l u := by
  unfold countStartsIn startsGE
  congr 1
  apply List.filter_congr
  intro p hp
  simp [h p hp]

theorem countStartsIn_eq_zero (l : List (Nat × Nat)) (u v : Nat)
    (h : ∀ p ∈ l, v < p.1) : countStartsIn l u v = 0 := by
  unfold countStartsIn
  rw [List.length_eq_zero, List.filter_eq_nil_iff]
  intro p hp
  simp only [Bool.and_eq_true, decide_eq_true_eq, not_and]
  intro _
  exact Nat.not_le.mpr (h p hp)

/-- C3 (amended): for a limiter constructed with positive `(maxTokens,
timeWindow)` and any monotone-time run, the number of admissions inside any
closed window `[u, u + timeWindow]` is at most `2 * maxTokens` (up to
`maxTokens` tokens banked in the bucket at the window's start plus up to
`maxTokens` tokens refilled during the window) — not `maxTokens + 1` as the
specification claims; moreover lazy refill keeps `tokens` within
`[0, maxTokens]` at every instant, and each admission consumes exactly one
token (the admission step is `tokens - 1` under the guard `tokens ≥ 1`). -/
theorem admissions_per_window_le_two_maxTokens
    (cfg : LimiterConfig) (t0 : Nat) (tr : List (Nat × LEvent)) (u : Nat)
    (hM : 0 < cfg.maxTokens) (hT : 0 < cfg.timeWindow)
    (hmono : timesMonoB t0 tr = true) :
    countStartsIn (runLimiter cfg t0 tr).starts u (u + cfg.timeWindow)
      ≤ 2 * cfg.maxTokens ∧
    ∀ x ∈ runStates cfg t0 tr, 0 ≤ x.tokens ∧ x.tokens ≤ (cfg.maxTokens : ℚ) := by
  have hinit0 : (0 : ℚ) ≤ (initState cfg t0).tokens := by
    simp only [initState]
    positivity
  have hinitmax : (initState cfg t0).tokens ≤ (cfg.maxTokens : ℚ) := le_refl _
  constructor
  · have hr : 0 < refillRate cfg := refillRate_pos cfg hM hT
    by_cases hcase : t0 ≤ u + cfg.timeWindow
    · -- split the trace at the end of the window
      have hsplit : tr.takeWhile (fun te => decide (te.1 ≤ u + cfg.timeWindow)) ++
          tr.dropWhile (fun te => decide (te.1 ≤ u + cfg.timeWindow)) = tr :=
        List.takeWhile_append_dropWhile _ tr
      have hstarts : (runLimiter cfg t0 tr).starts
          = (runGo cfg (initState cfg t0)
              (tr.takeWhile (fun te => decide (te.1 ≤ u + cfg.timeWindow)))).starts ++
            (runGo cfg (runGo cfg (initState cfg t0)
              (tr.takeWhile (fun te => decide (te.1 ≤ u + cfg.timeWindow)))).final
              (tr.dropWhile (fun te => decide (te.1 ≤ u + cfg.timeWindow)))).starts := by
        conv_lhs => rw [runLimiter, ← hsplit]
        rw [runGo_starts_append]
      have htakemono : timesMonoB t0
          (tr.takeWhile (fun te => decide (te.1 ≤ u + cfg.timeWindow))) = true := by
        apply timesMonoB_append_left _ (tr.dropWhile (fun te => decide (te.1 ≤ u + cfg.timeWindow)))
        rw [hsplit]
        exact hmono
      have htakebound : ∀ te ∈ tr.takeWhile (fun te => decide (te.1 ≤ u + cfg.timeWindow)),
          te.1 ≤ u + cfg.timeWindow := by
        intro te hte
        have := List.mem_takeWhile_imp hte
        simpa using this
      obtain ⟨hfle, hf0, hfw⟩ := runGo_window cfg u hr (u + cfg.timeWindow)
        (tr.takeWhile (fun te => decide (te.1 ≤ u + cfg.timeWindow)))
        (initState cfg t0) 0 t0 htakemono htakebound (le_refl _) hcase hinit0 hinitmax
        (Or.inl rfl)
      -- the drop part contributes nothing to the window
      have hdropzero : countStartsIn (runGo cfg (runGo cfg (initState cfg t0)
          (tr.takeWhile (fun te => decide (te.1 ≤ u + cfg.timeWindow)))).final
          (tr.dropWhile (fun te => decide (te.1 ≤ u + cfg.timeWindow)))).starts
          u (u + cfg.timeWindow) = 0 := by
        apply countStartsIn_eq_zero
        intro p hp
        have hpt := runGo_start_times cfg _ _ p hp
        obtain ⟨te, hte, htime⟩ := List.mem_map.mp hpt
        rw [← htime]
        exact timesMonoB_dropWhile_gt (u + cfg.timeWindow) tr t0 hmono te hte
      have htakecount : countStartsIn (runGo cfg (initState cfg t0)
          (tr.takeWhile (fun te => decide (te.1 ≤ u + cfg.timeWindow)))).starts
          u (u + cfg.timeWindow)
          = startsGE (runGo cfg (initState cfg t0)
              (tr.takeWhile (fun te => decide (te.1 ≤ u + cfg.timeWindow)))).starts u := by
        apply countStartsIn_eq_startsGE
        intro p hp
        have hpt := runGo_start_times cfg _ _ p hp
        obtain ⟨te, hte, htime⟩ := List.mem_map.mp hpt
        rw [← htime]
        exact htakebound te hte
      rw [hstarts, countStartsIn_append, hdropzero, htakecount, Nat.add_zero]
      -- read the bound off the invariant
      rcases hfw with hzero | ⟨hu2, hb2⟩
      · omega
      · have hWne : ((cfg.timeWindow : ℚ)) ≠ 0 := by
          have : (0 : ℚ) < (cfg.timeWindow : ℚ) := by exact_mod_cast hT
          linarith
        have hrateW : refillRate cfg * (cfg.timeWindow : ℚ) = (cfg.maxTokens : ℚ) := by
          unfold refillRate
          field_simp
        have hlru : ((runGo cfg (initState cfg t0)
            (tr.takeWhile (fun te => decide (te.1 ≤ u + cfg.timeWindow)))).final.lastRefill
            - u : Nat) ≤ cfg.timeWindow := by omega
        have hmono2 : refillRate cfg * (((runGo cfg (initState cfg t0)
            (tr.takeWhile (fun te => decide (te.1 ≤ u + cfg.timeWindow)))).final.lastRefill
            - u : Nat) : ℚ) ≤ refillRate cfg * (cfg.timeWindow : ℚ) := by
          apply mul_le_mul_of_nonneg_left _ (refillRate_nonneg cfg)
          exact_mod_cast hlru
        rw [hrateW] at hmono2
        have hfinal : ((startsGE (runGo cfg (initState cfg t0)
            (tr.takeWhile (fun te => decide (te.1 ≤ u + cfg.timeWindow)))).starts u : Nat) : ℚ)
            ≤ 2 * (cfg.maxTokens : ℚ) := by
          push_cast at hb2 ⊢
          linarith
        exact_mod_cast hfinal
    · -- the whole run happens after the window
      have hzero : countStartsIn (runLimiter cfg t0 tr).starts u (u + cfg.timeWindow) = 0 := by
        apply countStartsIn_eq_zero
        intro p hp
        have hpt := runGo_start_times cfg _ _ p hp
        obtain ⟨te, hte, htime⟩ := List.mem_map.mp hpt
        have := timesMonoB_le tr t0 hmono te hte
        omega
      omega
  · intro x hx
    simp only [runStates, List.mem_cons] at hx
    rcases hx with hx | hx
    · rw [hx]
      exact ⟨hinit0, hinitmax⟩
    · exact (runGo_tokens cfg tr (initState cfg t0) hinit0 hinitmax).2 x hx

/-- Counterexample to C3 as stated: limiter `(maxTokens 5, timeWindow
1000ms, maxConcurrent 100)` given nine `execute` calls at t = 0 with the
scheduler's retry timers at 200/400/600/800ms admits 9 requests inside the
single window [0, 1000] — more than `maxTokens + 1 = 6`: the bucket's
initial 5 tokens admit 5 at t = 0 and the continuous refill supplies 4 more
admissions before the window closes. -/
theorem admissions_per_window_counterexample :
    timesMonoB 0 burstTrace = true ∧
    countStartsIn (runLimiter ⟨5, 1000, 100⟩ 0 burstTrace).starts 0 (0 + 1000) = 9 ∧
    ¬ (countStartsIn (runLimiter ⟨5, 1000, 100⟩ 0 burstTrace).starts 0 (0 + 1000)
        ≤ 5 + 1) := by
  refine ⟨by decide, ?_, ?_⟩
  · norm_num [countStartsIn, runLimiter, runGo, drain, drainGo, refill, applyEvent,
      initState, refillRate, burstTrace]
  · norm_num [countStartsIn, runLimiter, runGo, drain, drainGo, refill, applyEvent,
      initState, refillRate, burstTrace]

/-- Witness for C3 (amended): the window bound and token-range invariant
instantiated on a concrete run — limiter `(2, 1000ms, 10)`, three `execute`
calls at t = 0 and a timer at t = 500, window [0, 1000]. -/
theorem admissions_per_window_le_two_maxTokens_witness :
    0 < (2 : Nat) ∧ 0 < (1000 : Nat) ∧ timesMonoB 0 smallTrace = true ∧
    (countStartsIn (runLimiter ⟨2, 1000, 10⟩ 0 smallTrace).starts 0 (0 + 1000)
        ≤ 2 * 2 ∧
      ∀ x ∈ runStates ⟨2, 1000, 10⟩ 0 smallTrace,
        0 ≤ x.tokens ∧ x.tokens ≤ ((2 : Nat) : ℚ)) :=
  ⟨by decide, by decide, by decide,
    admissions_per_window_le_two_maxTokens ⟨2, 1000, 10⟩ 0 smallTrace 0
      (by decide) (by decide) (by decide)⟩

/-! ## C4, C5, C6: the provider waterfall -/

theorem performPhoneLookup_spec (now : Nat) :
    ∀ ps : List WProvider,
      (performPhoneLookup now ps).result =
        (match ps.find? providerSucceeds with
         | some p =>
           { phone := lookupPhoneOf p, provider := p.config.name,
             cost := p.config.costPerRequest, timestamp := now }
         | none => noPhoneResult now) ∧
      (performPhoneLookup now ps).invoked =
        ps.takeWhile (fun p => !providerSucceeds p) ++ (ps.find? providerSucceeds).toList := by
  intro ps
  induction ps with
  | nil => constructor <;> simp [performPhoneLookup]
  | cons p rest ih =>
    rcases ho : p.lookupOutcome with e | phone
    · have hsucc : providerSucceeds p = false := by simp [providerSucceeds, ho]
      have hexec : PhoneProviderExecute p now = .error e := by
        simp [PhoneProviderExecute, ho]
      constructor
      · simp only [performPhoneLookup, hexec]
        rw [List.find?_cons_of_neg _ (by simp [hsucc])]
        exact ih.1
      · simp only [performPhoneLookup, hexec]
        rw [List.find?_cons_of_neg _ (by simp [hsucc]),
          List.takeWhile_cons_of_pos (by simp [hsucc])]
        simp only [List.cons_append]
        rw [ih.2]
    · have hexec : PhoneProviderExecute p now
          = .ok { phone := phone, provider := p.config.name,
                  cost := p.config.costPerRequest, timestamp := now } := by
        simp [PhoneProviderExecute, ho]
      by_cases hph : truthyStr phone = true
      · have hsucc : providerSucceeds p = true := by simp [providerSucceeds, ho, hph]
        constructor
        · simp only [performPhoneLookup, hexec]
          rw [if_pos (by simpa using hph), List.find?_cons_of_pos _ hsucc]
          simp [lookupPhoneOf, ho]
        · simp only [performPhoneLookup, hexec]
          rw [if_pos (by simpa using hph), List.find?_cons_of_pos _ hsucc,
            List.takeWhile_cons_of_neg (by simp [hsucc])]
          simp
      · have hsucc : providerSucceeds p = false := by
          simp only [providerSucceeds, ho]
          exact Bool.not_eq_true _ ▸ (by simpa using hph)
        constructor
        · simp only [performPhoneLookup, hexec]
          rw [if_neg (by simpa using hph), List.find?_cons_of_neg _ (by simp [hsucc])]
          exact ih.1
        · simp only [performPhoneLookup, hexec]
          rw [if_neg (by simpa using hph), List.find?_cons_of_neg _ (by simp [hsucc]),
            List.takeWhile_cons_of_pos (by simp [hsucc])]
          simp only [List.cons_append]
          rw [ih.2]

/-- C4: the waterfall.  The registry exposes the three enabled configs in
priority order, and for every provider list in that order and every
assignment of per-provider lookup outcomes, `performPhoneLookup` returns the
`PhoneResult` of the first provider whose lookup returned a truthy phone
(wrapped by `execute` with that provider's name and cost), invokes exactly
the failing or phoneless providers before it plus that provider and nobody
after it (a raised failure is skipped, not terminal), and returns
`{ phone := none, provider := "None", cost := 0, timestamp := now }` when
every provider is exhausted. -/
theorem waterfall_first_success (now : Nat) (ps : List WProvider) :
    registryConfigs = [orionConfig, astraConfig, nimbusConfig] ∧
    (performPhoneLookup now ps).result =
      (match ps.find? providerSucceeds with
       | some p =>
         { phone := lookupPhoneOf p, provider := p.config.name,
           cost := p.config.costPerRequest, timestamp := now }
       | none => noPhoneResult now) ∧
    (performPhoneLookup now ps).invoked =
      ps.takeWhile (fun p => !providerSucceeds p) ++ (ps.find? providerSucceeds).toList :=
  ⟨by simp [registryConfigs, PROVIDER_CONFIGS, List.mergeSort, orionConfig, astraConfig,
      nimbusConfig],
   (performPhoneLookup_spec now ps).1, (performPhoneLookup_spec now ps).2⟩

/-- C5: every `PhoneResult` the phone-lookup waterfall returns satisfies the
round-trip invariant: if its `phone` is `none` then its `provider` is
`"None"` and its `cost` is 0 (a provider result with a falsy phone is never
returned — the waterfall falls through instead). -/
theorem phoneResult_none_invariant (now : Nat) (ps : List WProvider)
    (h : (performPhoneLookup now ps).result.phone = none) :
    (performPhoneLookup now ps).result.provider = "None" ∧
    (performPhoneLookup now ps).result.cost = 0 := by
  have hres := (performPhoneLookup_spec now ps).1
  rcases hfind : ps.find? providerSucceeds with _ | p
  · rw [hfind] at hres
    rw [hres]
    exact ⟨rfl, rfl⟩
  · rw [hfind] at hres
    have hp : providerSucceeds p = true := List.find?_some hfind
    rw [hres] at h
    exfalso
    rcases ho : p.lookupOutcome with e | phone
    · simp [providerSucceeds, ho] at hp
    · simp only [lookupPhoneOf, ho] at h
      simp [providerSucceeds, ho, h, truthyStr] at hp

/-- Witness for C5: a run over one provider whose lookup finds nothing — its
result has `phone = none`, `provider = "None"`, `cost = 0`. -/
theorem phoneResult_none_invariant_witness :
    (performPhoneLookup 7 [⟨orionConfig, .ok none⟩]).result.phone = none ∧
    ((performPhoneLookup 7 [⟨orionConfig, .ok none⟩]).result.provider = "None" ∧
      (performPhoneLookup 7 [⟨orionConfig, .ok none⟩]).result.cost = 0) :=
  ⟨rfl, phoneResult_none_invariant 7 [⟨orionConfig, .ok none⟩] rfl⟩

/-- C6: whenever a provider's underlying lookup runs (returns `phone`,
found or not, rather than raising), `PhoneProvider.execute` wraps it with
`provider = config.name` and `cost = config.costPerRequest` — the cost is
charged per attempt that ran, including attempts whose `phone` is `none`. -/
theorem execute_charges_cost_per_attempt (cfg : ProviderConfig)
    (phone : Option String) (now : Nat) :
    PhoneProviderExecute ⟨cfg, .ok phone⟩ now
      = .ok { phone := phone, provider := cfg.name, cost := cfg.costPerRequest,
              timestamp := now } := rfl

/-! ## C7: retryWithBackoff -/

theorem retryGo_attempts_le {α : Type} (outcomes : Nat → HttpOutcome α) :
    ∀ rem a, (retryGo outcomes rem a).attempts ≤ rem := by
  intro rem
  induction rem with
  | zero => intro a; simp [retryGo]
  | succ k ih =>
    intro a
    simp only [retryGo]
    rcases outcomes a with v | st | _
    · simp
    · dsimp only
      by_cases hce : isClientError st = true
      · rw [if_pos hce]; simp
      · rw [if_neg hce]
        by_cases hk : k = 0
        · rw [if_pos hk]; simp
        · rw [if_neg hk]
          have := ih (a + 1)
          dsimp only
          omega
    · simp

theorem retryGo_attempts_pos {α : Type} (outcomes : Nat → HttpOutcome α) :
    ∀ rem a, 1 ≤ rem → 1 ≤ (retryGo outcomes rem a).attempts := by
  intro rem
  induction rem with
  | zero => intro a h; omega
  | succ k _ =>
    intro a _
    simp only [retryGo]
    rcases outcomes a with v | st | _
    · simp
    · dsimp only
      by_cases hce : isClientError st = true
      · rw [if_pos hce]
      · rw [if_neg hce]
        by_cases hk : k = 0
        · rw [if_pos hk]
        · rw [if_neg hk]; simp
    · simp

theorem retryGo_backoffs {α : Type} (outcomes : Nat → HttpOutcome α) :
    ∀ rem a, (retryGo outcomes rem a).backoffs
      = (List.range ((retryGo outcomes rem a).attempts - 1)).map
          (fun i => 2 ^ (a + i) * 1000) := by
  intro rem
  induction rem with
  | zero => intro a; simp [retryGo]
  | succ k ih =>
    intro a
    simp only [retryGo]
    rcases outcomes a with v | st | _
    · simp
    · dsimp only
      by_cases hce : isClientError st = true
      · rw [if_pos hce]; simp
      · rw [if_neg hce]
        by_cases hk : k = 0
        · rw [if_pos hk]; simp
        · rw [if_neg hk]
          simp only [Nat.add_sub_cancel]
          have hpos : 1 ≤ (retryGo outcomes k (a + 1)).attempts :=
            retryGo_attempts_pos outcomes k (a + 1) (by omega)
          have hrange : List.range (retryGo outcomes k (a + 1)).attempts
              = 0 :: (List.range ((retryGo outcomes k (a + 1)).attempts - 1)).map
                  Nat.succ := by
            conv_lhs => rw [show (retryGo outcomes k (a + 1)).attempts
              = ((retryGo outcomes k (a + 1)).attempts - 1) + 1 by omega]
            exact List.range_succ_eq_map _
          rw [hrange]
          simp only [List.map_cons, Nat.add_zero, List.map_map]
          congr 1
          · rw [ih (a + 1)]
            apply List.map_congr_left
            intro i _
            simp only [Function.comp_apply, Nat.succ_eq_add_one]
            rw [show a + (i + 1) = a + 1 + i by omega]
    · simp

theorem retryGo_retried_non4xx {α : Type} (outcomes : Nat → HttpOutcome α) :
    ∀ rem a i, i + 1 < (retryGo outcomes rem a).attempts →
      ∃ st, outcomes (a + i) = .axiosErr st ∧ isClientError st = false := by
  intro rem
  induction rem with
  | zero => intro a i hi; simp [retryGo] at hi
  | succ k ih =>
    intro a i hi
    simp only [retryGo] at hi ⊢
    rcases ho : outcomes a with v | st | _
    · rw [ho] at hi; simp at hi
    · rw [ho] at hi
      dsimp only at hi
      by_cases hce : isClientError st = true
      · rw [if_pos hce] at hi; simp at hi
      · rw [if_neg hce] at hi
        by_cases hk : k = 0
        · rw [if_pos hk] at hi; simp at hi
        · rw [if_neg hk] at hi
          dsimp only at hi
          rcases i with _ | j
          · exact ⟨st, by simpa using ho, by simpa using hce⟩
          · have := ih (a + 1) j (by omega)
            obtain ⟨st2, hst2, hce2⟩ := this
            refine ⟨st2, ?_, hce2⟩
            rw [← hst2]
            congr 1
            omega
    · rw [ho] at hi; simp at hi

theorem retryGo_result {α : Type} (outcomes : Nat → HttpOutcome α) :
    ∀ rem a, 1 ≤ rem →
      (retryGo outcomes rem a).result
        = (match outcomes (a + ((retryGo outcomes rem a).attempts - 1)) with
           | .ok v => some v
           | _ => none) := by
  intro rem
  induction rem with
  | zero => intro a h; omega
  | succ k ih =>
    intro a _
    simp only [retryGo]
    rcases ho : outcomes a with v | st | _
    · simp [ho]
    · dsimp only
      by_cases hce : isClientError st = true
      · rw [if_pos hce]
        simp [ho]
      · rw [if_neg hce]
        by_cases hk : k = 0
        · rw [if_pos hk]
          simp [ho]
        · rw [if_neg hk]
          simp only [Nat.add_sub_cancel]
          rw [ih (a + 1) (by omega)]
          have hpos : 1 ≤ (retryGo outcomes k (a + 1)).attempts :=
            retryGo_attempts_pos outcomes k (a + 1) (by omega)
          congr 2
          omega
    · simp [ho]

theorem retryGo_4xx_immediate {α : Type} (outcomes : Nat → HttpOutcome α)
    (rem a i s : Nat) (hrem : 1 ≤ rem) (hi : i < (retryGo outcomes rem a).attempts)
    (hout : outcomes (a + i) = .axiosErr (some s)) (h4 : 400 ≤ s) (h5 : s < 500) :
    (retryGo outcomes rem a).attempts = i + 1 ∧
      (retryGo outcomes rem a).result = none := by
  have hnot : ¬ (i + 1 < (retryGo outcomes rem a).attempts) := by
    intro hlt
    obtain ⟨st, hst, hce⟩ := retryGo_retried_non4xx outcomes rem a i hlt
    rw [hout] at hst
    have hst2 : some s = st := by injection hst
    rw [← hst2] at hce
    simp [isClientError, h4, h5] at hce
  have hatt : (retryGo outcomes rem a).attempts = i + 1 := by omega
  refine ⟨hatt, ?_⟩
  have hres := retryGo_result outcomes rem a hrem
  rw [hatt] at hres
  simp only [Nat.add_sub_cancel] at hres
  rw [hres, hout]

/-- C7 (amended): with `maxRetries = 3`, the HTTP call is attempted at most
3 times; sleeps of `2^attempt * 1000` ms (1s, 2s) separate consecutive
attempts; every retried attempt failed with an axios error that was *not* an
HTTP 4xx — this includes transport-level errors and HTTP 5xx, but also any
other non-4xx HTTP status, so "retry only on transport errors or 5xx" is
amended to "retry only on non-4xx axios failures"; an HTTP 4xx terminates
the whole lookup at that attempt with result `none` and no retry; and when
the attempts exhaust the helper returns `none` rather than raising (the
model's result type is `Option`). -/
theorem retryWithBackoff_spec {α : Type} (outcomes : Nat → HttpOutcome α) :
    (retryWithBackoff outcomes 3).attempts ≤ 3 ∧
    (retryWithBackoff outcomes 3).backoffs
      = (List.range ((retryWithBackoff outcomes 3).attempts - 1)).map
          (fun i => 2 ^ i * 1000) ∧
    (∀ i, i + 1 < (retryWithBackoff outcomes 3).attempts →
      ∃ st, outcomes i = .axiosErr st ∧ isClientError st = false) ∧
    ((retryWithBackoff outcomes 3).result
      = match outcomes ((retryWithBackoff outcomes 3).attempts - 1) with
        | .ok v => some v
        | _ => none) ∧
    (∀ i s, i < (retryWithBackoff outcomes 3).attempts →
      outcomes i = .axiosErr (some s) → 400 ≤ s → s < 500 →
      (retryWithBackoff outcomes 3).attempts = i + 1 ∧
        (retryWithBackoff outcomes 3).result = none) := by
  refine ⟨retryGo_attempts_le outcomes 3 0, ?_, ?_, ?_, ?_⟩
  · have := retryGo_backoffs outcomes 3 0
    simpa [retryWithBackoff] using this
  · intro i hi
    have := retryGo_retried_non4xx outcomes 3 0 i
      (by simpa [retryWithBackoff] using hi)
    simpa using this
  · have := retryGo_result outcomes 3 0 (by omega)
    simpa [retryWithBackoff] using this
  · intro i s hi hout h4 h5
    have := retryGo_4xx_immediate outcomes 3 0 i s (by omega)
      (by simpa [retryWithBackoff] using hi) (by simpa using hout) h4 h5
    simpa [retryWithBackoff] using this

/-- Counterexample to C7 as stated: an axios failure carrying HTTP status
300 — neither a transport-level error (it has a status) nor a 5xx — is
retried by `retryWithBackoff`: the run makes a second attempt after a
1000ms backoff, so "a retry happens only on transport-level errors or HTTP
5xx" is false of the code, whose actual guard is "any axios error outside
[400, 500)". -/
theorem retry_on_non5xx_counterexample :
    retryWithBackoff
        (fun i => if i = 0 then HttpOutcome.axiosErr (some 300) else HttpOutcome.ok 7) 3
      = { result := some 7, attempts := 2, backoffs := [1000] } ∧
    ¬ specRetryCondition (some 300) := by
  constructor
  · decide
  · intro hc
    rcases hc with hc | ⟨s, hs, h5⟩
    · simp at hc
    · have hs300 : s = 300 := by
        injection hs.symm
      omega

/-! ## C8: JobTracker progress counting -/

theorem incrementRun_spec (n : Nat) :
    ∀ (ts : List Nat) (p : Nat) (ca : Option Nat), p < n → p + ts.length ≤ n →
      incrementRun { totalLeads := n, processedLeads := p, completedAt := ca } ts
        = { job :=
              { totalLeads := n, processedLeads := p + ts.length,
                completedAt := if p + ts.length = n then ts.getLast? else ca },
            stamps := if p + ts.length = n then 1 else 0 } := by
  intro ts
  induction ts with
  | nil =>
    intro p ca hp hle
    have hne : p ≠ n := by omega
    simp [incrementRun, hne]
  | cons t ts ih =>
    intro p ca hp hle
    simp only [List.length_cons] at hle ⊢
    by_cases hn1 : n ≤ p + 1
    · have hpn : p + 1 = n := by omega
      have hts : ts = [] := by
        have hlen : ts.length = 0 := by omega
        exact List.length_eq_zero.mp hlen
      subst hts
      simp [incrementRun, incrementProgress, hn1, hpn, List.getLast?]
    · have hplt : p + 1 < n := by omega
      simp only [incrementRun, incrementProgress]
      simp only [if_neg hn1]
      rw [ih (p + 1) ca hplt (by omega)]
      rcases ts with _ | ⟨a, ts2⟩
      · have hne3 : p + 1 ≠ n := by omega
        simp [hne3]
      · have harith : p + 1 + (a :: ts2).length = p + ((a :: ts2).length + 1) := by
          omega
        rw [harith, List.getLast?_cons_cons]
        simp

/-- C8 (amended): for a fresh job with `totalLeads = n > 0` and any sequence
of **at most n** `incrementProgress` calls, `processedLeads` equals the
number of calls and stays within `[0, totalLeads]`, and `completedAt` is
assigned exactly once — at the call where `processedLeads` first reaches
`totalLeads` (so exactly when the sequence has length `n`, stamped with that
call's clock) — and is never assigned otherwise.  (The unamended claim
quantified over *every* call sequence; the code re-stamps `completedAt` on
every call beyond the total, see the counterexample.) -/
theorem incrementProgress_exactly_once (n : Nat) (ts : List Nat)
    (hn : 0 < n) (hlen : ts.length ≤ n) :
    (incrementRun (newJob n) ts).job.processedLeads = ts.length ∧
    (incrementRun (newJob n) ts).job.processedLeads ≤ n ∧
    (incrementRun (newJob n) ts).stamps = (if ts.length = n then 1 else 0) ∧
    (incrementRun (newJob n) ts).job.completedAt
      = (if ts.length = n then ts.getLast? else none) := by
  have h := incrementRun_spec n ts 0 none hn (by simpa using hlen)
  have hzero : (0 : Nat) + ts.length = ts.length := Nat.zero_add _
  rw [show newJob n = { totalLeads := n, processedLeads := 0, completedAt := none }
    from rfl, h]
  rw [hzero]
  exact ⟨rfl, hlen, rfl, rfl⟩

/-- Counterexample to C8 as stated: on a job with `totalLeads = 1`, two
`incrementProgress` calls (at clocks 5 then 7) drive `processedLeads` to 2,
violating `processedLeads ≤ totalLeads`, and `completedAt` is assigned at
*both* calls (the guard is `processedLeads >= totalLeads`, so the stamp of
the first call is overwritten by the second) — not exactly once. -/
theorem incrementProgress_counterexample :
    (incrementRun (newJob 1) [5, 7]).job.processedLeads = 2 ∧
    ¬ ((incrementRun (newJob 1) [5, 7]).job.processedLeads ≤ 1) ∧
    (incrementRun (newJob 1) [5, 7]).stamps = 2 ∧
    (incrementRun (newJob 1) [5, 7]).job.completedAt = some 7 := by
  decide

/-- Witness for C8 (amended): a fresh two-lead job incremented twice ends
with `processedLeads = 2 = totalLeads`, one single `completedAt` assignment,
stamped at the second call. -/
theorem incrementProgress_exactly_once_witness :
    0 < 2 ∧ ([3, 9] : List Nat).length ≤ 2 ∧
    ((incrementRun (newJob 2) [3, 9]).job.processedLeads = ([3, 9] : List Nat).length ∧
      (incrementRun (newJob 2) [3, 9]).job.processedLeads ≤ 2 ∧
      (incrementRun (newJob 2) [3, 9]).stamps
        = (if ([3, 9] : List Nat).length = 2 then 1 else 0) ∧
      (incrementRun (newJob 2) [3, 9]).job.completedAt
        = (if ([3, 9] : List Nat).length = 2 then ([3, 9] : List Nat).getLast? else none)) :=
  ⟨by decide, by decide, incrementProgress_exactly_once 2 [3, 9] (by decide) (by decide)⟩


/-! ## C9: existing-phone leads in an enrichment batch -/

/-- C9 (amended): for a lead whose `phoneNumber` is already set (truthy) in
a batch that selects phone-lookup, the resolver-side orchestrator
`processEnrichment` issues no lookup workflow, persists nothing, and emits
exactly one synthetic `operation-complete` for that cell carrying the
existing phone with provider `"Existing"` and cost 0; the Temporal
`batchEnrichmentWorkflow` variant also issues no phone-lookup child for that
lead, but — contrary to the unamended claim, which asserted the synthetic
event of both cited orchestrators — it skips the cell without emitting any
event (see the counterexample). -/
theorem existing_phone_synthetic_completion (lead : Lead)
    (wf : Except String PhoneLookupResult) (ops : List String) (jobId : String)
    (hphone : truthyStr lead.phoneNumber = true) :
    (processEnrichmentPhoneCell lead wf).events
      = [.operationComplete lead.id opPhoneLookup lead.phoneNumber
          (some provExisting) (some 0)] ∧
    (processEnrichmentPhoneCell lead wf).workflowsStarted = 0 ∧
    (processEnrichmentPhoneCell lead wf).persisted = none ∧
    batchEnrichmentPhoneEventCount [lead] ops jobId = 0 := by
  refine ⟨?_, ?_, ?_, ?_⟩
  · simp [processEnrichmentPhoneCell, hphone]
  · simp [processEnrichmentPhoneCell, hphone]
  · simp [processEnrichmentPhoneCell, hphone]
  · simp only [batchEnrichmentPhoneEventCount, batchEnrichmentChildren, List.map_cons,
      List.map_nil, List.flatten, List.append_nil, hphone]
    by_cases hv : ops.contains opVerifyEmail ∧ lead.emailVerified = none
    · rw [if_pos hv]
      simp [wfVerifyEmail, wfPhoneLookup]
    · rw [if_neg hv]
      simp

/-- Counterexample to C9 as stated: in the `batchEnrichmentWorkflow`
orchestrator (src/backend/src/workflows/batchEnrichment.ts, one of the
claim's two cited code paths), a lead with `phoneNumber = "+1-900"` in a
phone-lookup batch starts no child workflow at all, so no
`updateLeadAndNotify` runs and zero — not exactly one — `operation-complete`
events are emitted for that cell. -/
theorem existing_phone_batch_counterexample :
    batchEnrichmentChildren [leadWithPhone] [opPhoneLookup] jobOne = [] ∧
    batchEnrichmentPhoneEventCount [leadWithPhone] [opPhoneLookup] jobOne = 0 ∧
    (0 : Nat) ≠ 1 := by
  refine ⟨?_, ?_, by decide⟩
  · simp [batchEnrichmentChildren, leadWithPhone, truthyStr, phone900, opVerifyEmail,
      opPhoneLookup]
  · simp [batchEnrichmentPhoneEventCount, batchEnrichmentChildren, leadWithPhone,
      truthyStr, phone900, opVerifyEmail, opPhoneLookup]

/-- Witness for C9 (amended): the lead with `phoneNumber = "+1-900"` —
`processEnrichment` emits the one synthetic event with `"Existing"`/0 and
starts nothing; the batch workflow starts no phone child. -/
theorem existing_phone_synthetic_completion_witness :
    truthyStr leadWithPhone.phoneNumber = true ∧
    ((processEnrichmentPhoneCell leadWithPhone
        (.ok { phone := none, provider := none, cost := none })).events
      = [.operationComplete leadWithPhone.id opPhoneLookup leadWithPhone.phoneNumber
          (some provExisting) (some 0)] ∧
    (processEnrichmentPhoneCell leadWithPhone
        (.ok { phone := none, provider := none, cost := none })).workflowsStarted = 0 ∧
    (processEnrichmentPhoneCell leadWithPhone
        (.ok { phone := none, provider := none, cost := none })).persisted = none ∧
    batchEnrichmentPhoneEventCount [leadWithPhone] [opPhoneLookup] jobOne = 0) := by
  have hphone : truthyStr leadWithPhone.phoneNumber = true := by
    simp [leadWithPhone, truthyStr, phone900]
  exact ⟨hphone, existing_phone_synthetic_completion leadWithPhone
    (.ok { phone := none, provider := none, cost := none }) [opPhoneLookup] jobOne hphone⟩

/-! ## C10: falsy-string defaulting in phoneLookupWorkflow -/

/-- C10: `phoneLookupWorkflow` normalises its input with JS `||`, so an
*empty-string* `companyWebsite` falls back to `"example.com"` and an
empty-string `jobTitle` to `"Unknown"`, exactly as when the fields are
absent: the defaulting treats falsy strings like missing ones. -/
theorem normalize_empty_falsy_defaults (fn ln em : String) (cw jt : Option String) :
    (normalizeLookupInput
      { firstName := fn, lastName := ln, email := em, companyWebsite := some emptyStr,
        jobTitle := jt }).companyWebsite = "example.com" ∧
    (normalizeLookupInput
      { firstName := fn, lastName := ln, email := em, companyWebsite := none,
        jobTitle := jt }).companyWebsite = "example.com" ∧
    (normalizeLookupInput
      { firstName := fn, lastName := ln, email := em, companyWebsite := cw,
        jobTitle := some emptyStr }).jobTitle = "Unknown" ∧
    (normalizeLookupInput
      { firstName := fn, lastName := ln, email := em, companyWebsite := cw,
        jobTitle := none }).jobTitle = "Unknown" := by
  refine ⟨?_, rfl, ?_, rfl⟩ <;>
    simp [normalizeLookupInput, jsOrString, emptyStr, strExampleCom, strUnknown]

end Spec2Proof
